import Mathlib

/-!
Shallow embedding of the market-analysis core (`analysis.py`) of the Zenith
repository, and proofs about it.  Python floats are modelled as rationals,
Python strings appearing only as data as lists of Unicode code points, and
fallible code (code that can raise) by `Option`.
-/

namespace Zenith

/-- Market-structure labels returned by `determine_market_structure`. -/
inductive MarketStructure
  | Uptrend
  | Downtrend
  | Ranging
  deriving DecidableEq

/-- Pivot kind: the `'high'` / `'low'` tag of the Python pivot dicts. -/
inductive PivotKind
  | high
  | low
  deriving DecidableEq

/-- Actions of a trade suggestion. -/
inductive TradeAction
  | Buy
  | Sell
  | Neutral
  deriving DecidableEq

/-- Marker position of a candlestick-pattern record (`'above'` / `'below'`). -/
inductive PatPos
  | above
  | below
  deriving DecidableEq

/-- Price bar.  The Python field `open` is called `opn` here because `open`
is a Lean keyword. -/
structure Candle where
  time : Int
  opn : ℚ
  high : ℚ
  low : ℚ
  close : ℚ
  deriving DecidableEq

/-- Swing point as produced by `find_levels`. -/
structure Pivot where
  kind : PivotKind
  price : ℚ
  index : Nat
  time : Int
  deriving DecidableEq

/-- Supply/demand zone, order block or FVG: `{high, low, time, mitigated}`. -/
structure Zone where
  high : ℚ
  low : ℚ
  time : Int
  mitigated : Bool
  deriving DecidableEq

/-- Liquidity-pool member `{time, price}`. -/
structure LiqPoint where
  time : Int
  price : ℚ
  deriving DecidableEq

/-- Candlestick-pattern record; `name` is the Python string as code points. -/
structure PatternRec where
  name : List Nat
  time : Int
  pos : PatPos
  price : ℚ
  deriving DecidableEq

/-- Trade suggestion `{action, entry, sl, tp, reason}`. -/
structure Suggestion where
  action : TradeAction
  entry : Option ℚ
  sl : Option ℚ
  tp : Option ℚ
  reason : String
  deriving DecidableEq

/-- The fields of the Python `analysis` dict that `get_trade_suggestion`
and `calculate_confidence` read. -/
structure Analysis where
  current_price : ℚ
  market_structure : MarketStructure × String
  support : List ℚ
  resistance : List ℚ
  demand_zones : List Zone
  supply_zones : List Zone
  bullish_ob : List Zone
  bearish_ob : List Zone
  bullish_fvg : List Zone
  bearish_fvg : List Zone
  buy_side_liquidity : List LiqPoint
  sell_side_liquidity : List LiqPoint
  candlestick_patterns : List PatternRec
  deriving DecidableEq

/-- Python slice `l[-n:]`. -/
def takeLast (n : Nat) (l : List α) : List α :=
  l.drop (l.length - n)

/-- Indicator of a confluence condition: 1 if it held, else 0. -/
def b2i (b : Bool) : Int :=
  if b then 1 else 0

/-- Stable insertion of a zone into a list sorted ascending by `low`
(Python's `zones.sort(key=lambda z: z['low'])` is a stable sort). -/
def insertZ (z : Zone) : List Zone → List Zone
  | [] => [z]
  | a :: as => if a.low < z.low then a :: insertZ z as else z :: a :: as

/-- Stable sort by `low`, ascending. -/
def sortZ : List Zone → List Zone
  | [] => []
  | z :: zs => insertZ z (sortZ zs)

/-- The merging loop of `_merge_zones`: `lastZ` is the zone currently at the
end of `merged_zones`; a close-enough zone is folded into it (union of the
bounds, keeping `lastZ`'s `time` and `mitigated` flags), otherwise `lastZ`
is emitted and the walk continues from the current zone. -/
def mergeFold (tm : ℚ) : Zone → List Zone → List Zone
  | lastZ, [] => [lastZ]
  | lastZ, cur :: rest =>
    if cur.low ≤ lastZ.high + (lastZ.high - lastZ.low) * tm then
      mergeFold tm ⟨max lastZ.high cur.high, min lastZ.low cur.low, lastZ.time, lastZ.mitigated⟩ rest
    else
      lastZ :: mergeFold tm cur rest

/-- Embedding of `_merge_zones(zones, tolerance_multiplier)`. -/
def mergeZones (tm : ℚ) (zs : List Zone) : List Zone :=
  match sortZ zs with
  | [] => []
  | z :: rest => mergeFold tm z rest

/-- Mean of `df['range'].tail(lookback)`.  An empty tail gives `0 / 0 = 0`
in `ℚ`; in that degenerate case the zone scan below is empty anyway. -/
def avgRange (lb : Nat) (df : List Candle) : ℚ :=
  let rs := takeLast lb (df.map fun c => c.high - c.low)
  rs.sum / (rs.length : ℚ)

/-- Loop indices `range(1, len(df) - 1)` of `find_sd_zones`. -/
def sdIdx (df : List Candle) : List Nat :=
  (List.range (df.length - 2)).map (· + 1)

/-- Supply/demand scan step at base index `i`, demand side: the pair fires
when the base range is below the mean and the next candle's range exceeds
`mean * threshold` with an up close; the zone is kept only when the forward
mitigation scan from `i + 2` finds no low back inside it. -/
def sdDemandAt (df : List Candle) (avg tmul : ℚ) (i : Nat) : Option Zone :=
  match df[i]?, df[i+1]? with
  | some base, some expl =>
    if base.high - base.low < avg ∧ avg * tmul < expl.high - expl.low ∧ expl.opn < expl.close
        ∧ ((df.drop (i + 2)).all fun c => decide (base.high < c.low)) = true then
      some ⟨base.high, base.low, base.time, false⟩
    else none
  | _, _ => none

/-- Supply/demand scan step at base index `i`, supply side (explosive candle
closed at or below its open; mitigated when a later high reaches the low). -/
def sdSupplyAt (df : List Candle) (avg tmul : ℚ) (i : Nat) : Option Zone :=
  match df[i]?, df[i+1]? with
  | some base, some expl =>
    if base.high - base.low < avg ∧ avg * tmul < expl.high - expl.low ∧ expl.close ≤ expl.opn
        ∧ ((df.drop (i + 2)).all fun c => decide (c.high < base.low)) = true then
      some ⟨base.high, base.low, base.time, false⟩
    else none
  | _, _ => none

/-- Unmitigated raw demand zones, in scan (time) order. -/
def demandRaw (lb : Nat) (tmul : ℚ) (df : List Candle) : List Zone :=
  (sdIdx df).filterMap (sdDemandAt df (avgRange lb df) tmul)

/-- Unmitigated raw supply zones, in scan (time) order. -/
def supplyRaw (lb : Nat) (tmul : ℚ) (df : List Candle) : List Zone :=
  (sdIdx df).filterMap (sdSupplyAt df (avgRange lb df) tmul)

/-- Embedding of `find_sd_zones(data, lookback, threshold_multiplier)`:
cluster the unmitigated zones and keep the final two of each merged list. -/
def find_sd_zones (df : List Candle) (lb : Nat) (tmul : ℚ) : List Zone × List Zone :=
  (takeLast 2 (mergeZones (1/2) (demandRaw lb tmul df)),
   takeLast 2 (mergeZones (1/2) (supplyRaw lb tmul df)))

/-- Stable insertion for descending price order (Python
`sorted(..., key=price, reverse=True)`). -/
def insertPD (p : Pivot) : List Pivot → List Pivot
  | [] => [p]
  | a :: as => if p.price < a.price then a :: insertPD p as else p :: a :: as

/-- Stable descending sort of pivots by price. -/
def sortPD : List Pivot → List Pivot
  | [] => []
  | p :: ps => insertPD p (sortPD ps)

/-- Stable insertion for ascending price order. -/
def insertPA (p : Pivot) : List Pivot → List Pivot
  | [] => [p]
  | a :: as => if a.price < p.price then a :: insertPA p as else p :: a :: as

/-- Stable ascending sort of pivots by price. -/
def sortPA : List Pivot → List Pivot
  | [] => []
  | p :: ps => insertPA p (sortPA ps)

/-- The grouping walk of `find_liquidity_pools`.  The group built so far is
`grp ++ [lastP]`; the tolerance of the admission test is computed from
`current_group[-1]`, that is from `lastP`, the most recently added member. -/
def lpWalk (tolPct : ℚ) (grp : List Pivot) (lastP : Pivot) : List Pivot → List (List Pivot)
  | [] => [grp ++ [lastP]]
  | p :: rest =>
    if |p.price - lastP.price| ≤ lastP.price * (tolPct / 100) then
      lpWalk tolPct (grp ++ [lastP]) p rest
    else
      (grp ++ [lastP]) :: lpWalk tolPct [] p rest

/-- All maximal groups of the walk, before the `len > 1` emission filter. -/
def lpGroups (tolPct : ℚ) : List Pivot → List (List Pivot)
  | [] => []
  | p :: ps => lpWalk tolPct [] p ps

/-- Embedding of `find_liquidity_pools(pivots, lookback, tolerance_percent)`:
only groups with more than one member are emitted, flattened to their
`{time, price}` member points. -/
def find_liquidity_pools (pivots : List Pivot) (tolPct : ℚ) : List LiqPoint × List LiqPoint :=
  let highs := sortPD (pivots.filter fun p => decide (p.kind = PivotKind.high))
  let lows := sortPA (pivots.filter fun p => decide (p.kind = PivotKind.low))
  let emit := fun l =>
    ((lpGroups tolPct l).filter fun g => decide (1 < g.length)).flatten.map
      fun p => LiqPoint.mk p.time p.price
  (emit highs, emit lows)

/-- Loop indices `range(2, len(df))` of `find_fvgs`. -/
def fvgIdx (df : List Candle) : List Nat :=
  (List.range (df.length - 2)).map (· + 2)

/-- Bullish FVG candidate at loop index `i` (candles `i-2, i-1, i`), kept
only when no later candle's low re-enters the gap. -/
def fvgBullAt (df : List Candle) (i : Nat) : Option Zone :=
  match df[i-2]?, df[i-1]?, df[i]? with
  | some c1, some c2, some c3 =>
    if c1.high < c3.low ∧ ((df.drop (i + 1)).all fun c => decide (c3.low < c.low)) = true then
      some ⟨c3.low, c1.high, c2.time, false⟩
    else none
  | _, _, _ => none

/-- Bearish FVG candidate at loop index `i`, kept only when no later
candle's high re-enters the gap. -/
def fvgBearAt (df : List Candle) (i : Nat) : Option Zone :=
  match df[i-2]?, df[i-1]?, df[i]? with
  | some c1, some c2, some c3 =>
    if c3.high < c1.low ∧ ((df.drop (i + 1)).all fun c => decide (c.high < c3.high)) = true then
      some ⟨c1.low, c3.high, c2.time, false⟩
    else none
  | _, _, _ => none

/-- All unmitigated bullish FVGs, in scan order. -/
def bullGaps (df : List Candle) : List Zone :=
  (fvgIdx df).filterMap (fvgBullAt df)

/-- All unmitigated bearish FVGs, in scan order. -/
def bearGaps (df : List Candle) : List Zone :=
  (fvgIdx df).filterMap (fvgBearAt df)

/-- Embedding of `find_fvgs(data)`: two most recent unmitigated gaps per side. -/
def find_fvgs (df : List Candle) : List Zone × List Zone :=
  (takeLast 2 (bullGaps df), takeLast 2 (bearGaps df))

/-- Downward scan `for j in range(sweep_candle_index, prev_index, -1)` of
`find_order_blocks` looking for the last up-close candle.  The scan starts
at the sweep index itself and stops after `prev_index + 1`. -/
def lastUpCandle (df : List Candle) (prevIdx : Nat) : Nat → Option Candle
  | 0 => none
  | j + 1 =>
    if j + 1 ≤ prevIdx then none
    else
      match df[j+1]? with
      | some c => if c.opn < c.close then some c else lastUpCandle df prevIdx j
      | none => lastUpCandle df prevIdx j

/-- Mirrored downward scan looking for the last down-close candle. -/
def lastDownCandle (df : List Candle) (prevIdx : Nat) : Nat → Option Candle
  | 0 => none
  | j + 1 =>
    if j + 1 ≤ prevIdx then none
    else
      match df[j+1]? with
      | some c => if c.close < c.opn then some c else lastDownCandle df prevIdx j
      | none => lastDownCandle df prevIdx j

/-- Bearish order-block attempt for an adjacent swing-high pair
`(prev, sweep)`: liquidity sweep, break of structure, order-block candle
selection, forward mitigation scan. -/
def obBearAt (df : List Candle) (lows : List Pivot) (pr : Pivot × Pivot) : Option Zone :=
  if pr.1.price < pr.2.price then
    let relevant := lows.filter fun sl => decide (sl.index < pr.2.index)
    if relevant.isEmpty then none
    else if (lows.filter fun sl => decide (pr.2.index < sl.index)).any
        (fun sl => relevant.any fun rl => decide (sl.price < rl.price)) then
      match lastUpCandle df pr.1.index pr.2.index with
      | some c =>
        if (df.drop (pr.2.index + 1)).any (fun k => decide (c.low ≤ k.high)) then none
        else some ⟨c.high, c.low, c.time, false⟩
      | none => none
    else none
  else none

/-- Bullish order-block attempt for an adjacent swing-low pair
`(prev, sweep)` (mirror of the bearish case). -/
def obBullAt (df : List Candle) (highs : List Pivot) (pr : Pivot × Pivot) : Option Zone :=
  if pr.2.price < pr.1.price then
    let relevant := highs.filter fun sh => decide (sh.index < pr.2.index)
    if relevant.isEmpty then none
    else if (highs.filter fun sh => decide (pr.2.index < sh.index)).any
        (fun sh => relevant.any fun rh => decide (rh.price < sh.price)) then
      match lastDownCandle df pr.1.index pr.2.index with
      | some c =>
        if (df.drop (pr.2.index + 1)).any (fun k => decide (k.low ≤ c.high)) then none
        else some ⟨c.high, c.low, c.time, false⟩
      | none => none
    else none
  else none

/-- Embedding of `find_order_blocks(data, pivots)`: returns
`(bullish_obs[-2:], bearish_obs[-2:])`. -/
def find_order_blocks (df : List Candle) (pivots : List Pivot) : List Zone × List Zone :=
  let highs := pivots.filter fun p => decide (p.kind = PivotKind.high)
  let lows := pivots.filter fun p => decide (p.kind = PivotKind.low)
  (takeLast 2 ((lows.zip lows.tail).filterMap (obBullAt df highs)),
   takeLast 2 ((highs.zip highs.tail).filterMap (obBearAt df lows)))

/-- ASCII uppercase on a code point; models Python `str.upper()` on the
ASCII column names involved here. -/
def upperCode (n : Nat) : Nat :=
  if 97 ≤ n ∧ n ≤ 122 then n - 32 else n

/-- Python `col.replace('CDL_', '')`: drops every occurrence of the code
sequence `C`,`D`,`L`,`_` = 67,68,76,95, scanning left to right. -/
def replaceCDL : List Nat → List Nat
  | 67 :: 68 :: 76 :: 95 :: rest => replaceCDL rest
  | c :: rest => c :: replaceCDL rest
  | [] => []

/-- Code points of `"Bullish"`, the substring `calculate_confidence` looks
for in pattern names. -/
def bullishStr : List Nat := [66, 117, 108, 108, 105, 115, 104]

/-- Code points of `"Bearish"`. -/
def bearishStr : List Nat := [66, 101, 97, 114, 105, 115, 104]

/-- Does `pat` occur at the head of the second list? -/
def startsWithL : List Nat → List Nat → Bool
  | [], _ => true
  | _ :: _, [] => false
  | p :: ps, c :: cs => p == c && startsWithL ps cs

/-- Python's substring test `pat in s`. -/
def hasSub (pat : List Nat) : List Nat → Bool
  | [] => startsWithL pat []
  | c :: cs => startsWithL pat (c :: cs) || hasSub pat cs

/-- Embedding of `find_candlestick_patterns`.  The hit matrix computed by
the external `pandas_ta` library (`df.ta.cdl_pattern(...)`) is taken as an
input: `rows[i]` holds one integer per column name of `cols` (`100` =
bullish hit, `-100` = bearish hit); the column names themselves are
arbitrary code-point lists.  The source renames columns with
`col.replace('CDL_', '')` and builds names `f"B_{name.upper()}"` /
`f"S_{name.upper()}"`. -/
def find_candlestick_patterns (df : List Candle) (cols : List (List Nat))
    (rows : List (List Int)) : List PatternRec :=
  ((rows.zip df).map fun rc =>
    (cols.zip rc.1).filterMap (fun cv =>
      if cv.2 = 100 then
        some ⟨[66, 95] ++ (replaceCDL cv.1).map upperCode, rc.2.time, PatPos.below, rc.2.low⟩
      else none)
    ++ (cols.zip rc.1).filterMap (fun cv =>
      if cv.2 = -100 then
        some ⟨[83, 95] ++ (replaceCDL cv.1).map upperCode, rc.2.time, PatPos.above, rc.2.high⟩
      else none)).flatten

/-- Python `min(xs, default=None)`. -/
def minQ : List ℚ → Option ℚ
  | [] => none
  | x :: xs => some (xs.foldl min x)

/-- Python `max(xs, default=None)`. -/
def maxQ : List ℚ → Option ℚ
  | [] => none
  | x :: xs => some (xs.foldl max x)

/-- The nested zone loop of `get_trade_suggestion`: the zone-type lists are
tried in priority order and the first zone containing the price wins; the
`String` is the display name of the matching zone type. -/
def zoneSearch (p : ℚ) : List (List Zone × String) → Option (Zone × String)
  | [] => none
  | (zs, nm) :: rest =>
    match zs.find? (fun z => decide (z.low ≤ p ∧ p ≤ z.high)) with
    | some z => some (z, nm)
    | none => zoneSearch p rest

/-- Python truthiness of `tp_target if tp_target else fallback`: both
`None` and `0` select the fallback. -/
def orElseTruthy (t : Option ℚ) (fallback : ℚ) : ℚ :=
  match t with
  | some v => if v = 0 then fallback else v
  | none => fallback

/-- Embedding of `get_trade_suggestion(analysis, risk_reward_ratio)`. -/
def get_trade_suggestion (a : Analysis) (rr : ℚ) : Suggestion :=
  match a.market_structure.1 with
  | MarketStructure.Uptrend =>
    match zoneSearch a.current_price
        [(a.demand_zones, "demand zones"), (a.bullish_ob, "bullish ob"),
         (a.bullish_fvg, "bullish fvg")] with
    | some zr =>
      let sl := zr.1.low * (999 / 1000)
      let risk := a.current_price - sl
      let tgt := minQ ((a.buy_side_liquidity.filter fun p =>
        decide (a.current_price < p.price)).map LiqPoint.price)
      ⟨TradeAction.Buy, some a.current_price, some sl,
        some (orElseTruthy tgt (a.current_price + risk * rr)),
        "Uptrend, price retesting " ++ zr.2 ++ "."⟩
    | none => ⟨TradeAction.Neutral, none, none, none, "Uptrend, but not in a key support zone."⟩
  | MarketStructure.Downtrend =>
    match zoneSearch a.current_price
        [(a.supply_zones, "supply zones"), (a.bearish_ob, "bearish ob"),
         (a.bearish_fvg, "bearish fvg")] with
    | some zr =>
      let sl := zr.1.high * (1001 / 1000)
      let risk := sl - a.current_price
      let tgt := maxQ ((a.sell_side_liquidity.filter fun p =>
        decide (p.price < a.current_price)).map LiqPoint.price)
      ⟨TradeAction.Sell, some a.current_price, some sl,
        some (orElseTruthy tgt (a.current_price - risk * rr)),
        "Downtrend, price retesting " ++ zr.2 ++ "."⟩
    | none => ⟨TradeAction.Neutral, none, none, none, "Downtrend, but not in a key resistance zone."⟩
  | MarketStructure.Ranging =>
    ⟨TradeAction.Neutral, none, none, none, "Ranging market, no clear edge."⟩

/-- Membership test `z['low'] <= entry <= z['high']`. -/
def inZone (e : ℚ) (z : Zone) : Bool :=
  decide (z.low ≤ e ∧ e ≤ z.high)

/-- Proximity test `abs(level - entry) / entry < 0.001` of
`calculate_confidence`.  In `ℚ` the division is total; the caller returns
`none` on exactly the paths where Python would raise instead. -/
def nearLevel (e l : ℚ) : Bool :=
  decide (|l - e| / e < 1 / 1000)

/-- The four Buy confluence bits of `calculate_confidence`, summed. -/
def confluencesBuy (a : Analysis) (e : ℚ) : Int :=
  b2i (a.bullish_ob.any (inZone e)) + b2i (a.bullish_fvg.any (inZone e))
    + b2i (a.support.any (nearLevel e))
    + b2i (a.candlestick_patterns.any fun p => hasSub bullishStr p.name)

/-- The four Sell confluence bits of `calculate_confidence`, summed. -/
def confluencesSell (a : Analysis) (e : ℚ) : Int :=
  b2i (a.bearish_ob.any (inZone e)) + b2i (a.bearish_fvg.any (inZone e))
    + b2i (a.resistance.any (nearLevel e))
    + b2i (a.candlestick_patterns.any fun p => hasSub bearishStr p.name)

/-- Embedding of `calculate_confidence(analysis, suggestion)`.  The result
is `none` exactly when the Python code raises: the proximity check divides
by the entry (`ZeroDivisionError` when the entry is `0` and the matching
level list is non-empty), and comparisons against a `None` entry raise
`TypeError` as soon as one of the zone or level lists is non-empty. -/
def calculate_confidence (a : Analysis) (s : Suggestion) : Option Int :=
  if s.action = TradeAction.Neutral then some 30
  else
    match s.action, s.entry with
    | TradeAction.Buy, some e =>
      if e = 0 ∧ a.support ≠ [] then none
      else some (min (50 + 15 * confluencesBuy a e) 95)
    | TradeAction.Buy, none =>
      if a.bullish_ob = [] ∧ a.bullish_fvg = [] ∧ a.support = [] then
        some (min (50 + 15 * confluencesBuy a 0) 95)
      else none
    | TradeAction.Sell, some e =>
      if e = 0 ∧ a.resistance ≠ [] then none
      else some (min (50 + 15 * confluencesSell a e) 95)
    | TradeAction.Sell, none =>
      if a.bearish_ob = [] ∧ a.bearish_fvg = [] ∧ a.resistance = [] then
        some (min (50 + 15 * confluencesSell a 0) 95)
      else none
    | TradeAction.Neutral, _ => some 30

/-- Number of satisfied confluence conditions of a suggestion; on every
path where `calculate_confidence` returns a value this agrees with the
count the Python code accumulated. -/
def confluenceCount (a : Analysis) (s : Suggestion) : Int :=
  match s.action with
  | TradeAction.Buy => confluencesBuy a (s.entry.getD 0)
  | TradeAction.Sell => confluencesSell a (s.entry.getD 0)
  | TradeAction.Neutral => 0

/-- An analysis with every collection empty, used as the base of the
concrete test inputs below. -/
def emptyAnalysis : Analysis :=
  ⟨0, (MarketStructure.Ranging, ""), [], [], [], [], [], [], [], [], [], [], []⟩

/-- Ranging analysis whose current price (1.5) lies inside the only supply
zone [1, 2]. -/
def rangingInSupply : Analysis :=
  { emptyAnalysis with
    current_price := 3/2
    market_structure := (MarketStructure.Ranging, "The market is consolidating with no clear directional bias from recent swing points.")
    supply_zones := [⟨2, 1, 10, false⟩] }

/-- Uptrend analysis whose current price (1.5) lies inside the only demand
zone [1, 2]; all bounds positive. -/
def uptrendInDemand : Analysis :=
  { emptyAnalysis with
    current_price := 3/2
    market_structure := (MarketStructure.Uptrend, "")
    demand_zones := [⟨2, 1, 5, false⟩] }

/-- Analysis with one support level, for the zero-entry division case. -/
def supportOnly : Analysis :=
  { emptyAnalysis with
    current_price := 1
    market_structure := (MarketStructure.Uptrend, "")
    support := [1] }

/-- Buy suggestion whose entry price is 0. -/
def buyEntryZero : Suggestion :=
  ⟨TradeAction.Buy, some 0, none, none, ""⟩

/-- Analysis with one resistance level, for the zero-entry division case. -/
def resistanceOnly : Analysis :=
  { emptyAnalysis with
    current_price := 1
    market_structure := (MarketStructure.Downtrend, "")
    resistance := [2] }

/-- Sell suggestion whose entry price is 0. -/
def sellEntryZero : Suggestion :=
  ⟨TradeAction.Sell, some 0, none, none, ""⟩

/-- Buy suggestion with the benign entry price 1. -/
def buyEntryOne : Suggestion :=
  ⟨TradeAction.Buy, some 1, none, none, ""⟩

/-- Candle series producing three unmitigated supply zones at successively
lower prices (times 1, 3, 5): each short-range base candle is followed by a
wide down close, and prices never return to an earlier zone.  Mean range is
(4+2+12+2+12+2+12+2)/8 = 6. -/
def sdSeries : List Candle :=
  [⟨0, 112, 114, 110, 111⟩,
   ⟨1, 101, 102, 100, 100⟩,
   ⟨2, 99, 99, 87, 87⟩,
   ⟨3, 81, 82, 80, 80⟩,
   ⟨4, 79, 79, 67, 67⟩,
   ⟨5, 61, 62, 60, 60⟩,
   ⟨6, 59, 59, 47, 47⟩,
   ⟨7, 41, 42, 40, 40⟩]

/-- Three swing highs (already in descending price order) whose consecutive
gaps are inside the 0.05% chained tolerance while the ends are not:
1000, 999.6, 999.2. -/
def driftPivots : List Pivot :=
  [⟨PivotKind.high, 1000, 10, 10⟩,
   ⟨PivotKind.high, 4998/5, 20, 20⟩,
   ⟨PivotKind.high, 4996/5, 30, 30⟩]

/-- Candle series for the order-block counterexample.  The swing-high pivot
pair is (10 at index 1, 12 at index 4); candle 4 — the sweep candle itself —
closes up (11 → 12) with bounds [10.8, 12.5], while candle 3 is the last
up-close candle strictly before the sweep, with different bounds
[8.9, 10.2]. -/
def obSeries : List Candle :=
  [⟨0, 9, 10, 17/2, 46/5⟩,
   ⟨1, 19/2, 10, 9, 47/5⟩,
   ⟨2, 47/5, 48/5, 5, 9⟩,
   ⟨3, 9, 51/5, 89/10, 10⟩,
   ⟨4, 11, 25/2, 54/5, 12⟩,
   ⟨5, 29/5, 6, 5, 26/5⟩,
   ⟨6, 5, 5, 4, 21/5⟩,
   ⟨7, 9/2, 11/2, 41/10, 22/5⟩]

/-- Pivots fed to `find_order_blocks` for the counterexample: a swept swing
high (10 then 12) and a broken swing low (5 then 4). -/
def obPivots : List Pivot :=
  [⟨PivotKind.high, 10, 1, 1⟩,
   ⟨PivotKind.low, 5, 2, 2⟩,
   ⟨PivotKind.high, 12, 4, 4⟩,
   ⟨PivotKind.low, 4, 6, 6⟩]

/-- The sweep candle (index 4) of `obSeries`. -/
def obSweepCandle : Candle := ⟨4, 11, 25/2, 54/5, 12⟩

/-- Four-candle series realising the FVG scenario of the spec:
candles 0..2 have `c1.high = 1.10` and `c3.low = 1.12`, and the later
candle keeps its low above 1.12, so the gap stays unmitigated. -/
def fvgSeries : List Candle :=
  [⟨0, 1, 11/10, 1, 21/20⟩,
   ⟨1, 21/20, 23/20, 1, 11/10⟩,
   ⟨2, 23/20, 6/5, 28/25, 29/25⟩,
   ⟨3, 6/5, 5/4, 59/50, 61/50⟩]

/-- The single `pandas_ta` column name `"CDL_engulfing"` as code points
(lower case, to exercise the `.upper()` renaming). -/
def patCols : List (List Nat) :=
  [[67, 68, 76, 95, 101, 110, 103, 117, 108, 102, 105, 110, 103]]

/-- One matrix row with a bullish hit (value 100) in the single column. -/
def patRows : List (List Int) := [[100]]

/-- One candle for the pattern-matrix test input. -/
def patSeries : List Candle := [⟨0, 1, 2, 1/2, 3/2⟩]

/-- Analysis whose pattern list is exactly the output of
`find_candlestick_patterns` on the test matrix. -/
def patAnalysis : Analysis :=
  { emptyAnalysis with
    current_price := 1
    market_structure := (MarketStructure.Uptrend, "")
    candlestick_patterns := find_candlestick_patterns patSeries patCols patRows }

theorem mem_insertZ {z a : Zone} {l : List Zone} : a ∈ insertZ z l ↔ a = z ∨ a ∈ l := by
  induction l with
  | nil => simp [insertZ]
  | cons b bs ih =>
    by_cases hc : b.low < z.low
    · simp only [insertZ, if_pos hc, List.mem_cons, ih]
      tauto
    · simp only [insertZ, if_neg hc, List.mem_cons]

theorem insertZ_sorted {z : Zone} {l : List Zone}
    (h : l.Pairwise fun a b => a.low ≤ b.low) :
    (insertZ z l).Pairwise fun a b => a.low ≤ b.low := by
  induction l with
  | nil => simp [insertZ]
  | cons a as ih =>
    rcases List.pairwise_cons.mp h with ⟨ha, has⟩
    by_cases hc : a.low < z.low
    · simp only [insertZ, if_pos hc]
      refine List.pairwise_cons.mpr ⟨?_, ih has⟩
      intro b hb
      rcases mem_insertZ.mp hb with rfl | hb
      · exact le_of_lt hc
      · exact ha b hb
    · simp only [insertZ, if_neg hc]
      refine List.pairwise_cons.mpr ⟨?_, h⟩
      intro b hb
      rcases List.mem_cons.mp hb with rfl | hb
      · exact not_lt.mp hc
      · exact le_trans (not_lt.mp hc) (ha b hb)

theorem sortZ_sorted : ∀ l : List Zone, (sortZ l).Pairwise fun a b => a.low ≤ b.low
  | [] => List.Pairwise.nil
  | z :: zs => insertZ_sorted (sortZ_sorted zs)

theorem sortZ_of_sorted {l : List Zone}
    (h : l.Pairwise fun a b => a.low ≤ b.low) : sortZ l = l := by
  induction l with
  | nil => rfl
  | cons a as ih =>
    rcases List.pairwise_cons.mp h with ⟨ha, has⟩
    simp only [sortZ, ih has]
    cases as with
    | nil => rfl
    | cons b bs =>
      have hnb : ¬ b.low < a.low := not_lt.mpr (ha b (List.mem_cons_self b bs))
      simp [insertZ, hnb]

theorem insertZ_of_lt {z : Zone} : ∀ {l : List Zone},
    (∀ a ∈ l, a.low < z.low) → insertZ z l = l ++ [z] := by
  intro l
  induction l with
  | nil => intro _; rfl
  | cons a as ih =>
    intro h
    have hc : a.low < z.low := h a (List.mem_cons_self a as)
    simp only [insertZ, if_pos hc, List.cons_append]
    rw [ih fun b hb => h b (List.mem_cons_of_mem a hb)]

theorem sortZ_of_desc {l : List Zone}
    (h : l.Pairwise fun a b => b.low < a.low) : sortZ l = l.reverse := by
  induction l with
  | nil => rfl
  | cons a as ih =>
    rcases List.pairwise_cons.mp h with ⟨ha, has⟩
    simp only [sortZ, ih has]
    rw [insertZ_of_lt fun b hb => ha b (List.mem_reverse.mp hb), List.reverse_cons]

theorem pairwise_merge_step {z cur : Zone} {rest : List Zone}
    (h : (z :: cur :: rest).Pairwise fun a b => a.low ≤ b.low) :
    ((⟨max z.high cur.high, min z.low cur.low, z.time, z.mitigated⟩ : Zone) :: rest).Pairwise
      fun a b => a.low ≤ b.low := by
  rcases List.pairwise_cons.mp h with ⟨hz, htail⟩
  rcases List.pairwise_cons.mp htail with ⟨_, hrest⟩
  refine List.pairwise_cons.mpr ⟨?_, hrest⟩
  intro b hb
  have : min z.low cur.low = z.low :=
    min_eq_left (hz cur (List.mem_cons_self cur rest))
  simpa [this] using hz b (List.mem_cons_of_mem cur hb)

theorem mergeFold_cons (tm : ℚ) : ∀ (rest : List Zone) (z : Zone),
    ∃ h t, mergeFold tm z rest = h :: t ∧ h.time = z.time := by
  intro rest
  induction rest with
  | nil => exact fun z => ⟨z, [], rfl, rfl⟩
  | cons cur rest ih =>
    intro z
    unfold mergeFold
    by_cases hc : cur.low ≤ z.high + (z.high - z.low) * tm
    · rw [if_pos hc]
      exact ih _
    · rw [if_neg hc]
      exact ⟨z, mergeFold tm cur rest, rfl, rfl⟩

theorem mergeFold_head_low (tm : ℚ) : ∀ (rest : List Zone) (z : Zone),
    ((z :: rest).Pairwise fun a b => a.low ≤ b.low) →
    ∃ h t, mergeFold tm z rest = h :: t ∧ h.low = z.low := by
  intro rest
  induction rest with
  | nil => exact fun z _ => ⟨z, [], rfl, rfl⟩
  | cons cur rest ih =>
    intro z hs
    unfold mergeFold
    by_cases hc : cur.low ≤ z.high + (z.high - z.low) * tm
    · rw [if_pos hc]
      obtain ⟨h, t, he, hl⟩ := ih _ (pairwise_merge_step hs)
      refine ⟨h, t, he, ?_⟩
      have : min z.low cur.low = z.low :=
        min_eq_left ((List.pairwise_cons.mp hs).1 cur (List.mem_cons_self cur rest))
      simpa [this] using hl
    · rw [if_neg hc]
      exact ⟨z, mergeFold tm cur rest, rfl, rfl⟩

theorem mergeFold_low_le (tm : ℚ) : ∀ (rest : List Zone) (z : Zone),
    ((z :: rest).Pairwise fun a b => a.low ≤ b.low) →
    ∀ w ∈ mergeFold tm z rest, z.low ≤ w.low := by
  intro rest
  induction rest with
  | nil =>
    intro z _ w hw
    rcases List.mem_singleton.mp hw with rfl
    exact le_refl _
  | cons cur rest ih =>
    intro z hs w hw
    rcases List.pairwise_cons.mp hs with ⟨hz, htail⟩
    unfold mergeFold at hw
    by_cases hc : cur.low ≤ z.high + (z.high - z.low) * tm
    · rw [if_pos hc] at hw
      have := ih _ (pairwise_merge_step hs) w hw
      have hmin : min z.low cur.low = z.low :=
        min_eq_left (hz cur (List.mem_cons_self cur rest))
      simpa [hmin] using this
    · rw [if_neg hc] at hw
      rcases List.mem_cons.mp hw with rfl | hw
      · exact le_refl _
      · exact le_trans (hz cur (List.mem_cons_self cur rest)) (ih _ htail w hw)

theorem mergeFold_sorted (tm : ℚ) : ∀ (rest : List Zone) (z : Zone),
    ((z :: rest).Pairwise fun a b => a.low ≤ b.low) →
    (mergeFold tm z rest).Pairwise fun a b => a.low ≤ b.low := by
  intro rest
  induction rest with
  | nil => intro z _; simp [mergeFold]
  | cons cur rest ih =>
    intro z hs
    rcases List.pairwise_cons.mp hs with ⟨hz, htail⟩
    unfold mergeFold
    by_cases hc : cur.low ≤ z.high + (z.high - z.low) * tm
    · rw [if_pos hc]
      exact ih _ (pairwise_merge_step hs)
    · rw [if_neg hc]
      refine List.pairwise_cons.mpr ⟨?_, ih _ htail⟩
      intro w hw
      exact le_trans (hz cur (List.mem_cons_self cur rest))
        (mergeFold_low_le tm rest cur htail w hw)

theorem mergeFold_sep (tm : ℚ) : ∀ (rest : List Zone) (z : Zone),
    ((z :: rest).Pairwise fun a b => a.low ≤ b.low) →
    (mergeFold tm z rest).Chain' fun a b => ¬ (b.low ≤ a.high + (a.high - a.low) * tm) := by
  intro rest
  induction rest with
  | nil => intro z _; simp [mergeFold]
  | cons cur rest ih =>
    intro z hs
    rcases List.pairwise_cons.mp hs with ⟨_, htail⟩
    unfold mergeFold
    by_cases hc : cur.low ≤ z.high + (z.high - z.low) * tm
    · rw [if_pos hc]
      exact ih _ (pairwise_merge_step hs)
    · rw [if_neg hc]
      refine List.chain'_cons'.mpr ⟨?_, ih _ htail⟩
      intro y hy
      obtain ⟨h, t, he, hl⟩ := mergeFold_head_low tm rest cur htail
      rw [he] at hy
      simp only [List.head?_cons, Option.mem_def, Option.some.injEq] at hy
      rw [← hy, hl]
      exact hc

theorem mergeFold_of_sep (tm : ℚ) : ∀ (rest : List Zone) (z : Zone),
    ((z :: rest).Chain' fun a b => ¬ (b.low ≤ a.high + (a.high - a.low) * tm)) →
    mergeFold tm z rest = z :: rest := by
  intro rest
  induction rest with
  | nil => intro z _; rfl
  | cons cur rest ih =>
    intro z hch
    rcases List.chain'_cons.mp hch with ⟨hsep, htail⟩
    unfold mergeFold
    rw [if_neg hsep, ih _ htail]

theorem mergeFold_time_chain (tm : ℚ) (r : Int → Int → Prop) :
    ∀ (rest : List Zone) (z : Zone),
    ((z :: rest).Pairwise fun a b => r a.time b.time) →
    (mergeFold tm z rest).Chain' fun a b => r a.time b.time := by
  intro rest
  induction rest with
  | nil => intro z _; simp [mergeFold]
  | cons cur rest ih =>
    intro z hs
    rcases List.pairwise_cons.mp hs with ⟨hz, htail⟩
    rcases List.pairwise_cons.mp htail with ⟨_, hrest⟩
    unfold mergeFold
    by_cases hc : cur.low ≤ z.high + (z.high - z.low) * tm
    · rw [if_pos hc]
      refine ih _ (List.pairwise_cons.mpr ⟨?_, hrest⟩)
      intro b hb
      exact hz b (List.mem_cons_of_mem cur hb)
    · rw [if_neg hc]
      refine List.chain'_cons'.mpr ⟨?_, ih _ htail⟩
      intro y hy
      obtain ⟨h, t, he, htime⟩ := mergeFold_cons tm rest cur
      rw [he] at hy
      simp only [List.head?_cons, Option.mem_def, Option.some.injEq] at hy
      rw [← hy, htime]
      exact hz cur (List.mem_cons_self cur rest)

/-- Claim C9: zone merging is idempotent — applying `_merge_zones` to the
result of `_merge_zones(zs)` (already merged and sorted by low) produces
the same list, element for element. -/
theorem C9_theorem (tm : ℚ) (zs : List Zone) :
    mergeZones tm (mergeZones tm zs) = mergeZones tm zs := by
  cases hs : sortZ zs with
  | nil =>
    unfold mergeZones
    rw [hs]
    rfl
  | cons z rest =>
    have hsorted : (z :: rest).Pairwise fun a b => a.low ≤ b.low := hs ▸ sortZ_sorted zs
    have hinner : mergeZones tm zs = mergeFold tm z rest := by
      unfold mergeZones
      rw [hs]
    have hOutSorted := mergeFold_sorted tm rest z hsorted
    have hOutSep := mergeFold_sep tm rest z hsorted
    obtain ⟨h, t, he, _⟩ := mergeFold_cons tm rest z
    rw [hinner, he]
    unfold mergeZones
    rw [sortZ_of_sorted (he ▸ hOutSorted)]
    exact mergeFold_of_sep tm t h (he ▸ hOutSep)

theorem avgRange_nonneg (lb : Nat) (df : List Candle)
    (hwf : ∀ c ∈ df, c.low ≤ c.high) : 0 ≤ avgRange lb df := by
  show 0 ≤ (takeLast lb (df.map fun c => c.high - c.low)).sum
      / ((takeLast lb (df.map fun c => c.high - c.low)).length : ℚ)
  apply div_nonneg
  · apply List.sum_nonneg
    intro x hx
    have hx' : x ∈ df.map fun c => c.high - c.low := List.mem_of_mem_drop hx
    rcases List.mem_map.mp hx' with ⟨c, hc, rfl⟩
    simpa [sub_nonneg] using hwf c hc
  · exact Nat.cast_nonneg _

theorem sdSupplyAt_some {df : List Candle} {avg tmul : ℚ} {i : Nat} {z : Zone}
    (h : sdSupplyAt df avg tmul i = some z) :
    ∃ base expl, df[i]? = some base ∧ df[i+1]? = some expl ∧
      base.high - base.low < avg ∧ avg * tmul < expl.high - expl.low ∧ expl.close ≤ expl.opn ∧
      (∀ c ∈ df.drop (i + 2), c.high < base.low) ∧
      z = ⟨base.high, base.low, base.time, false⟩ := by
  unfold sdSupplyAt at h
  split at h
  · rename_i base expl hb he
    split at h
    · rename_i hcond
      obtain ⟨h1, h2, h3, h4⟩ := hcond
      refine ⟨base, expl, hb, he, h1, h2, h3, ?_, (Option.some.inj h).symm⟩
      intro c hc
      exact of_decide_eq_true (List.all_eq_true.mp h4 c hc)
    · exact absurd h (by simp)
  · exact absurd h (by simp)

theorem sdDemandAt_some {df : List Candle} {avg tmul : ℚ} {i : Nat} {z : Zone}
    (h : sdDemandAt df avg tmul i = some z) :
    ∃ base expl, df[i]? = some base ∧ df[i+1]? = some expl ∧
      base.high - base.low < avg ∧ avg * tmul < expl.high - expl.low ∧ expl.opn < expl.close ∧
      (∀ c ∈ df.drop (i + 2), base.high < c.low) ∧
      z = ⟨base.high, base.low, base.time, false⟩ := by
  unfold sdDemandAt at h
  split at h
  · rename_i base expl hb he
    split at h
    · rename_i hcond
      obtain ⟨h1, h2, h3, h4⟩ := hcond
      refine ⟨base, expl, hb, he, h1, h2, h3, ?_, (Option.some.inj h).symm⟩
      intro c hc
      exact of_decide_eq_true (List.all_eq_true.mp h4 c hc)
    · exact absurd h (by simp)
  · exact absurd h (by simp)

theorem sdIdx_pairwise (df : List Candle) : (sdIdx df).Pairwise (· < ·) := by
  unfold sdIdx
  rw [List.pairwise_map]
  exact (List.pairwise_lt_range _).imp fun h => by omega

theorem supplyRaw_pairwise (lb : Nat) (tmul : ℚ) (df : List Candle) (htm : 1 ≤ tmul)
    (hwf : ∀ c ∈ df, c.low ≤ c.high)
    (hmono : df.Pairwise fun a b => a.time < b.time) :
    (supplyRaw lb tmul df).Pairwise fun x y => y.high < x.low ∧ x.time < y.time := by
  unfold supplyRaw
  rw [List.pairwise_filterMap]
  refine (sdIdx_pairwise df).imp fun {i j} hij => ?_
  intro z hz z' hz'
  rw [Option.mem_def] at hz hz'
  obtain ⟨b1, e1, hb1, he1, _, hx1, _, hun1, rfl⟩ := sdSupplyAt_some hz
  obtain ⟨b2, e2, hb2, he2, hbase2, _, _, _, rfl⟩ := sdSupplyAt_some hz'
  have havg : 0 ≤ avgRange lb df := avgRange_nonneg lb df hwf
  have hij2 : i + 2 ≤ j := by
    rcases Nat.lt_or_ge j (i + 2) with hj | hj
    · exfalso
      have hj1 : j = i + 1 := by omega
      subst hj1
      rw [hb2] at he1
      have heb : b2 = e1 := Option.some.inj he1
      have hle : avgRange lb df ≤ avgRange lb df * tmul :=
        le_mul_of_one_le_right havg htm
      rw [← heb] at hx1
      linarith
    · exact hj
  have hmem : b2 ∈ df.drop (i + 2) := by
    have hdp : (df.drop (i + 2))[j - (i + 2)]? = df[j]? := by
      rw [List.getElem?_drop]
      congr 1
      omega
    exact List.getElem?_mem (hdp.trans hb2)
  refine ⟨hun1 b2 hmem, ?_⟩
  obtain ⟨hi_lt, hgi⟩ := List.getElem?_eq_some_iff.mp hb1
  obtain ⟨hj_lt, hgj⟩ := List.getElem?_eq_some_iff.mp hb2
  have := List.pairwise_iff_getElem.mp hmono i j hi_lt hj_lt hij
  rw [hgi, hgj] at this
  exact this

theorem demandRaw_pairwise (lb : Nat) (tmul : ℚ) (df : List Candle) (htm : 1 ≤ tmul)
    (hwf : ∀ c ∈ df, c.low ≤ c.high)
    (hmono : df.Pairwise fun a b => a.time < b.time) :
    (demandRaw lb tmul df).Pairwise fun x y => x.high < y.low ∧ x.time < y.time := by
  unfold demandRaw
  rw [List.pairwise_filterMap]
  refine (sdIdx_pairwise df).imp fun {i j} hij => ?_
  intro z hz z' hz'
  rw [Option.mem_def] at hz hz'
  obtain ⟨b1, e1, hb1, he1, _, hx1, _, hun1, rfl⟩ := sdDemandAt_some hz
  obtain ⟨b2, e2, hb2, he2, hbase2, _, _, _, rfl⟩ := sdDemandAt_some hz'
  have havg : 0 ≤ avgRange lb df := avgRange_nonneg lb df hwf
  have hij2 : i + 2 ≤ j := by
    rcases Nat.lt_or_ge j (i + 2) with hj | hj
    · exfalso
      have hj1 : j = i + 1 := by omega
      subst hj1
      rw [hb2] at he1
      have heb : b2 = e1 := Option.some.inj he1
      have hle : avgRange lb df ≤ avgRange lb df * tmul :=
        le_mul_of_one_le_right havg htm
      rw [← heb] at hx1
      linarith
    · exact hj
  have hmem : b2 ∈ df.drop (i + 2) := by
    have hdp : (df.drop (i + 2))[j - (i + 2)]? = df[j]? := by
      rw [List.getElem?_drop]
      congr 1
      omega
    exact List.getElem?_mem (hdp.trans hb2)
  refine ⟨hun1 b2 hmem, ?_⟩
  obtain ⟨hi_lt, hgi⟩ := List.getElem?_eq_some_iff.mp hb1
  obtain ⟨hj_lt, hgj⟩ := List.getElem?_eq_some_iff.mp hb2
  have := List.pairwise_iff_getElem.mp hmono i j hi_lt hj_lt hij
  rw [hgi, hgj] at this
  exact this

theorem supplyRaw_wf (lb : Nat) (tmul : ℚ) (df : List Candle)
    (hwf : ∀ c ∈ df, c.low ≤ c.high) :
    ∀ z ∈ supplyRaw lb tmul df, z.low ≤ z.high := by
  intro z hz
  unfold supplyRaw at hz
  rcases List.mem_filterMap.mp hz with ⟨i, _, hsome⟩
  obtain ⟨base, _, hb, _, _, _, _, _, rfl⟩ := sdSupplyAt_some hsome
  exact hwf base (List.getElem?_mem hb)

theorem demandRaw_wf (lb : Nat) (tmul : ℚ) (df : List Candle)
    (hwf : ∀ c ∈ df, c.low ≤ c.high) :
    ∀ z ∈ demandRaw lb tmul df, z.low ≤ z.high := by
  intro z hz
  unfold demandRaw at hz
  rcases List.mem_filterMap.mp hz with ⟨i, _, hsome⟩
  obtain ⟨base, _, hb, _, _, _, _, _, rfl⟩ := sdDemandAt_some hsome
  exact hwf base (List.getElem?_mem hb)

/-- Claim C4 (amended): `find_sd_zones` retains, per side, the final two
zones of the merged list sorted ascending by `low`.  For well-formed,
time-increasing candles the merged demand list ascends in time, so the two
retained demand zones are indeed the most recent; the merged supply list
descends in time, so the two retained supply zones are the two oldest
(highest-priced) ones, not the most recent. -/
theorem C4_theorem (df : List Candle) (lb : Nat) (tmul : ℚ) (htm : 1 ≤ tmul)
    (hwf : ∀ c ∈ df, c.low ≤ c.high)
    (hmono : df.Pairwise fun a b => a.time < b.time) :
    find_sd_zones df lb tmul =
      (takeLast 2 (mergeZones (1/2) (demandRaw lb tmul df)),
       takeLast 2 (mergeZones (1/2) (supplyRaw lb tmul df)))
    ∧ (mergeZones (1/2) (demandRaw lb tmul df)).Chain' (fun a b => a.time < b.time)
    ∧ (mergeZones (1/2) (supplyRaw lb tmul df)).Chain' (fun a b => b.time < a.time) := by
  refine ⟨rfl, ?_, ?_⟩
  · have hp := demandRaw_pairwise lb tmul df htm hwf hmono
    have hwfz := demandRaw_wf lb tmul df hwf
    have hsorted : (demandRaw lb tmul df).Pairwise fun a b => a.low ≤ b.low :=
      hp.imp_of_mem fun ha _ h => le_of_lt (lt_of_le_of_lt (hwfz _ ha) h.1)
    have hsz : sortZ (demandRaw lb tmul df) = demandRaw lb tmul df := sortZ_of_sorted hsorted
    have htimes : (demandRaw lb tmul df).Pairwise fun a b => a.time < b.time :=
      hp.imp fun h => h.2
    unfold mergeZones
    rw [hsz]
    cases hd : demandRaw lb tmul df with
    | nil => exact List.chain'_nil
    | cons z rest => exact mergeFold_time_chain (1/2) (· < ·) rest z (hd ▸ htimes)
  · have hp := supplyRaw_pairwise lb tmul df htm hwf hmono
    have hwfz := supplyRaw_wf lb tmul df hwf
    have hdesc : (supplyRaw lb tmul df).Pairwise fun a b => b.low < a.low :=
      hp.imp_of_mem fun _ hb h => lt_of_le_of_lt (hwfz _ hb) h.1
    have hsz : sortZ (supplyRaw lb tmul df) = (supplyRaw lb tmul df).reverse :=
      sortZ_of_desc hdesc
    have htimes : (supplyRaw lb tmul df).reverse.Pairwise fun a b => b.time < a.time := by
      rw [List.pairwise_reverse]
      exact hp.imp fun h => h.2
    unfold mergeZones
    rw [hsz]
    cases hr : (supplyRaw lb tmul df).reverse with
    | nil => exact List.chain'_nil
    | cons z rest => exact mergeFold_time_chain (1/2) (fun x y => y < x) rest z (hr ▸ htimes)

unseal Rat.add Rat.mul Rat.inv Rat.sub in
/-- Claim C4 counterexample: on `sdSeries` the merged unmitigated supply
zones carry times `[5, 3, 1]` (time 5 the most recent), yet `find_sd_zones`
returns the supply zones with times `[3, 1]` — it drops the most recent
zone and keeps the oldest, so retention is not by recency. -/
theorem C4_counterexample :
    (find_sd_zones sdSeries 50 (3/2)).2.map Zone.time = [3, 1]
    ∧ (mergeZones (1/2) (supplyRaw 50 (3/2) sdSeries)).map Zone.time = [5, 3, 1]
    ∧ (find_sd_zones sdSeries 50 (3/2)).1 = [] := by
  decide

unseal Rat.add Rat.mul Rat.inv Rat.sub in
/-- Claim C4 witness: the amended theorem applied to the concrete series
`sdSeries`. -/
theorem C4_witness :
    ((1 : ℚ) ≤ 3/2 ∧ (∀ c ∈ sdSeries, c.low ≤ c.high)
      ∧ sdSeries.Pairwise (fun a b => a.time < b.time))
    ∧ (find_sd_zones sdSeries 50 (3/2) =
        (takeLast 2 (mergeZones (1/2) (demandRaw 50 (3/2) sdSeries)),
         takeLast 2 (mergeZones (1/2) (supplyRaw 50 (3/2) sdSeries)))
      ∧ (mergeZones (1/2) (demandRaw 50 (3/2) sdSeries)).Chain' (fun a b => a.time < b.time)
      ∧ (mergeZones (1/2) (supplyRaw 50 (3/2) sdSeries)).Chain' (fun a b => b.time < a.time)) :=
  ⟨⟨by norm_num, by decide, by decide⟩,
   C4_theorem sdSeries 50 (3/2) (by norm_num) (by decide) (by decide)⟩

theorem lpWalk_chain (tolPct : ℚ) :
    ∀ (rest grp : List Pivot) (lastP : Pivot),
    ((grp ++ [lastP]).Chain' fun a b => |b.price - a.price| ≤ a.price * (tolPct / 100)) →
    ∀ g ∈ lpWalk tolPct grp lastP rest,
      g.Chain' fun a b => |b.price - a.price| ≤ a.price * (tolPct / 100) := by
  intro rest
  induction rest with
  | nil =>
    intro grp lastP hch g hg
    rcases List.mem_singleton.mp hg with rfl
    exact hch
  | cons p rest ih =>
    intro grp lastP hch g hg
    unfold lpWalk at hg
    by_cases hc : |p.price - lastP.price| ≤ lastP.price * (tolPct / 100)
    · rw [if_pos hc] at hg
      refine ih (grp ++ [lastP]) p ?_ g hg
      rw [List.chain'_append]
      refine ⟨hch, List.chain'_singleton p, ?_⟩
      intro x hx y hy
      rw [Option.mem_def, List.getLast?_concat, Option.some.injEq] at hx
      rw [Option.mem_def, List.head?_cons, Option.some.injEq] at hy
      rw [← hx, ← hy]
      exact hc
    · rw [if_neg hc] at hg
      rcases List.mem_cons.mp hg with rfl | hg
      · exact hch
      · exact ih [] p (List.chain'_singleton p) g hg

/-- Claim C5 (amended): every group emitted by the liquidity-pool walk is a
chain in which each admitted pivot is within `price x tolerancePercent/100`
of the *most recently added* member (the running reference is
`current_group[-1]`, not the first member), and a group is emitted only if
it has more than one member. -/
theorem C5_theorem (tolPct : ℚ) (l g : List Pivot)
    (hg : g ∈ (lpGroups tolPct l).filter fun g' => decide (1 < g'.length)) :
    (g.Chain' fun a b => |b.price - a.price| ≤ a.price * (tolPct / 100)) ∧ 1 < g.length := by
  rcases List.mem_filter.mp hg with ⟨hmem, hlen⟩
  refine ⟨?_, of_decide_eq_true hlen⟩
  cases l with
  | nil => exact absurd hmem (by simp [lpGroups])
  | cons p ps =>
    exact lpWalk_chain tolPct ps [] p (List.chain'_singleton p) g hmem

unseal Rat.add Rat.mul Rat.inv Rat.sub in
/-- Claim C5 counterexample: with tolerance 0.05% the descending highs
1000, 999.6, 999.2 form a single emitted group — each step is inside the
tolerance of the previous member — although the last member is *not*
within the tolerance of the group's first member (|999.2 - 1000| = 0.8 >
0.5), so the running reference is the most recently added member, not the
first. -/
theorem C5_counterexample :
    lpGroups (1/20) (sortPD (driftPivots.filter fun p => decide (p.kind = PivotKind.high)))
      = [driftPivots]
    ∧ find_liquidity_pools driftPivots (1/20)
      = ([⟨10, 1000⟩, ⟨20, 4998/5⟩, ⟨30, 4996/5⟩], [])
    ∧ ¬ (|(4996/5 : ℚ) - 1000| ≤ 1000 * ((1/20) / 100)) := by
  decide

unseal Rat.add Rat.mul Rat.inv Rat.sub in
/-- Claim C5 witness: the amended theorem applied to the drifting group of
`driftPivots`. -/
theorem C5_witness :
    driftPivots ∈ (lpGroups (1/20) driftPivots).filter (fun g' => decide (1 < g'.length))
    ∧ ((driftPivots.Chain' fun a b => |b.price - a.price| ≤ a.price * ((1/20) / 100))
      ∧ 1 < driftPivots.length) :=
  ⟨by decide, C5_theorem (1/20) driftPivots driftPivots (by decide)⟩

theorem lastUpCandle_spec (df : List Candle) (prevIdx : Nat) :
    ∀ (j : Nat) (c : Candle), lastUpCandle df prevIdx j = some c →
    ∃ k, prevIdx < k ∧ k ≤ j ∧ df[k]? = some c ∧ c.opn < c.close ∧
      ∀ m, k < m → m ≤ j → ∀ c', df[m]? = some c' → ¬ c'.opn < c'.close := by
  intro j
  induction j with
  | zero => intro c h; exact absurd h (by simp [lastUpCandle])
  | succ j ih =>
    intro c h
    unfold lastUpCandle at h
    by_cases hp : j + 1 ≤ prevIdx
    · rw [if_pos hp] at h
      exact absurd h (by simp)
    · rw [if_neg hp] at h
      split at h
      · rename_i c0 hj
        by_cases hup : c0.opn < c0.close
        · rw [if_pos hup] at h
          have hc : c0 = c := Option.some.inj h
          subst hc
          exact ⟨j + 1, by omega, le_refl _, hj, hup, fun m hm1 hm2 => by omega⟩
        · rw [if_neg hup] at h
          obtain ⟨k, hk1, hk2, hk3, hk4, hk5⟩ := ih c h
          refine ⟨k, hk1, Nat.le_succ_of_le hk2, hk3, hk4, ?_⟩
          intro m hm1 hm2 c' hc'
          rcases Nat.lt_or_ge m (j + 1) with hm | hm
          · exact hk5 m hm1 (by omega) c' hc'
          · have hmj : m = j + 1 := by omega
            subst hmj
            rw [hj] at hc'
            rw [← Option.some.inj hc']
            exact hup
      · rename_i hj
        obtain ⟨k, hk1, hk2, hk3, hk4, hk5⟩ := ih c h
        refine ⟨k, hk1, Nat.le_succ_of_le hk2, hk3, hk4, ?_⟩
        intro m hm1 hm2 c' hc'
        rcases Nat.lt_or_ge m (j + 1) with hm | hm
        · exact hk5 m hm1 (by omega) c' hc'
        · have hmj : m = j + 1 := by omega
          subst hmj
          rw [hj] at hc'
          exact absurd hc' (by simp)

theorem lastDownCandle_spec (df : List Candle) (prevIdx : Nat) :
    ∀ (j : Nat) (c : Candle), lastDownCandle df prevIdx j = some c →
    ∃ k, prevIdx < k ∧ k ≤ j ∧ df[k]? = some c ∧ c.close < c.opn ∧
      ∀ m, k < m → m ≤ j → ∀ c', df[m]? = some c' → ¬ c'.close < c'.opn := by
  intro j
  induction j with
  | zero => intro c h; exact absurd h (by simp [lastDownCandle])
  | succ j ih =>
    intro c h
    unfold lastDownCandle at h
    by_cases hp : j + 1 ≤ prevIdx
    · rw [if_pos hp] at h
      exact absurd h (by simp)
    · rw [if_neg hp] at h
      split at h
      · rename_i c0 hj
        by_cases hup : c0.close < c0.opn
        · rw [if_pos hup] at h
          have hc : c0 = c := Option.some.inj h
          subst hc
          exact ⟨j + 1, by omega, le_refl _, hj, hup, fun m hm1 hm2 => by omega⟩
        · rw [if_neg hup] at h
          obtain ⟨k, hk1, hk2, hk3, hk4, hk5⟩ := ih c h
          refine ⟨k, hk1, Nat.le_succ_of_le hk2, hk3, hk4, ?_⟩
          intro m hm1 hm2 c' hc'
          rcases Nat.lt_or_ge m (j + 1) with hm | hm
          · exact hk5 m hm1 (by omega) c' hc'
          · have hmj : m = j + 1 := by omega
            subst hmj
            rw [hj] at hc'
            rw [← Option.some.inj hc']
            exact hup
      · rename_i hj
        obtain ⟨k, hk1, hk2, hk3, hk4, hk5⟩ := ih c h
        refine ⟨k, hk1, Nat.le_succ_of_le hk2, hk3, hk4, ?_⟩
        intro m hm1 hm2 c' hc'
        rcases Nat.lt_or_ge m (j + 1) with hm | hm
        · exact hk5 m hm1 (by omega) c' hc'
        · have hmj : m = j + 1 := by omega
          subst hmj
          rw [hj] at hc'
          exact absurd hc' (by simp)

/-- Claim C6 (amended): the order-block candle scan, which
`find_order_blocks` uses for every emitted block, selects the last
up-close (bearish case) resp. down-close (bullish case) candle at an index
strictly after the previous swing point's index and *at most the sweep
index itself* — the scan starts at the sweep candle, so the sweep candle
is selected when it closes in the required direction. -/
theorem C6_theorem :
    (∀ (df : List Candle) (prevIdx j : Nat) (c : Candle),
      lastUpCandle df prevIdx j = some c →
      ∃ k, prevIdx < k ∧ k ≤ j ∧ df[k]? = some c ∧ c.opn < c.close ∧
        ∀ m, k < m → m ≤ j → ∀ c', df[m]? = some c' → ¬ c'.opn < c'.close)
    ∧ (∀ (df : List Candle) (prevIdx j : Nat) (c : Candle),
      lastDownCandle df prevIdx j = some c →
      ∃ k, prevIdx < k ∧ k ≤ j ∧ df[k]? = some c ∧ c.close < c.opn ∧
        ∀ m, k < m → m ≤ j → ∀ c', df[m]? = some c' → ¬ c'.close < c'.opn) :=
  ⟨fun df prevIdx => lastUpCandle_spec df prevIdx,
   fun df prevIdx => lastDownCandle_spec df prevIdx⟩

unseal Rat.add Rat.mul Rat.inv Rat.sub in
/-- Claim C6 counterexample: on `obSeries`/`obPivots` the emitted bearish
order block has the bounds [10.8, 12.5] of the sweep candle (index 4)
itself, although an up-close candle (index 3, bounds [8.9, 10.2]) exists
strictly before the sweep index: no candle at an index strictly between
the previous swing high (index 1) and the sweep (index 4) has high 12.5,
so the selected candle is not strictly before the sweep pivot's index. -/
theorem C6_counterexample :
    find_order_blocks obSeries obPivots = ([], [⟨25/2, 54/5, 4, false⟩])
    ∧ obSeries[4]? = some obSweepCandle
    ∧ obSweepCandle.opn < obSweepCandle.close
    ∧ obSweepCandle.high = 25/2
    ∧ obSeries[3]? = some ⟨3, 9, 51/5, 89/10, 10⟩
    ∧ (∀ j, j < 4 → 1 < j → (obSeries[j]?.map Candle.high ≠ some (25/2))) := by
  decide

unseal Rat.add Rat.mul Rat.inv Rat.sub in
/-- Claim C6 witness: the amended selection property applied to the
concrete scan of `obSeries` from sweep index 4 down to previous index 1,
which selects the sweep candle itself. -/
theorem C6_witness :
    lastUpCandle obSeries 1 4 = some obSweepCandle
    ∧ (∃ k, 1 < k ∧ k ≤ 4 ∧ obSeries[k]? = some obSweepCandle
        ∧ obSweepCandle.opn < obSweepCandle.close
        ∧ ∀ m, k < m → m ≤ 4 → ∀ c', obSeries[m]? = some c' → ¬ c'.opn < c'.close) :=
  ⟨by decide, C6_theorem.1 obSeries 1 4 obSweepCandle (by decide)⟩

theorem fvgBullAt_some {df : List Candle} {i : Nat} {z : Zone}
    (h : fvgBullAt df i = some z) :
    ∃ c1 c2 c3, df[i-2]? = some c1 ∧ df[i-1]? = some c2 ∧ df[i]? = some c3 ∧
      c1.high < c3.low ∧ (∀ c ∈ df.drop (i + 1), c3.low < c.low) ∧
      z = ⟨c3.low, c1.high, c2.time, false⟩ := by
  unfold fvgBullAt at h
  split at h
  · rename_i c1 c2 c3 h1 h2 h3
    split at h
    · rename_i hcond
      obtain ⟨hgap, hall⟩ := hcond
      refine ⟨c1, c2, c3, h1, h2, h3, hgap, ?_, (Option.some.inj h).symm⟩
      intro c hc
      exact of_decide_eq_true (List.all_eq_true.mp hall c hc)
    · exact absurd h (by simp)
  · exact absurd h (by simp)

theorem fvgBullAt_eq_some {df : List Candle} {i : Nat} {c1 c2 c3 : Candle}
    (h1 : df[i-2]? = some c1) (h2 : df[i-1]? = some c2) (h3 : df[i]? = some c3)
    (hgap : c1.high < c3.low) (hm : ∀ c ∈ df.drop (i + 1), c3.low < c.low) :
    fvgBullAt df i = some ⟨c3.low, c1.high, c2.time, false⟩ := by
  unfold fvgBullAt
  simp only [h1, h2, h3]
  rw [if_pos ⟨hgap, List.all_eq_true.mpr fun c hc => decide_eq_true (hm c hc)⟩]

theorem candle_time_inj {df : List Candle}
    (hmono : df.Pairwise fun a b => a.time < b.time)
    {a b : Nat} {x y : Candle} (ha : df[a]? = some x) (hb : df[b]? = some y)
    (ht : x.time = y.time) : a = b := by
  obtain ⟨hal, hag⟩ := List.getElem?_eq_some_iff.mp ha
  obtain ⟨hbl, hbg⟩ := List.getElem?_eq_some_iff.mp hb
  rcases Nat.lt_trichotomy a b with hlt | heq | hgt
  · have := List.pairwise_iff_getElem.mp hmono a b hal hbl hlt
    rw [hag, hbg, ht] at this
    exact absurd this (lt_irrefl _)
  · exact heq
  · have := List.pairwise_iff_getElem.mp hmono b a hbl hal hgt
    rw [hag, hbg, ht] at this
    exact absurd this (lt_irrefl _)

/-- Claim C8: with three consecutive candles at positions `p, p+1, p+2`
such that `c1.high = 1.10` and `c3.low = 1.12`, the FVG scan detects a
bullish gap `[1.10, 1.12]` stamped at `c2`'s time exactly when no later
candle's low comes back to 1.12 or below, and that gap is in the bullish
list returned by `find_fvgs` iff it is unmitigated and among the two most
recent unmitigated bullish gaps. -/
theorem C8_theorem (df : List Candle) (p : Nat) (c1 c2 c3 : Candle)
    (hmono : df.Pairwise fun a b => a.time < b.time)
    (h1 : df[p]? = some c1) (h2 : df[p+1]? = some c2) (h3 : df[p+2]? = some c3)
    (hhigh : c1.high = 11/10) (hlow : c3.low = 28/25) :
    (fvgBullAt df (p+2) = some ⟨28/25, 11/10, c2.time, false⟩
      ↔ ∀ c ∈ df.drop (p+3), (28/25 : ℚ) < c.low)
    ∧ ((⟨28/25, 11/10, c2.time, false⟩ : Zone) ∈ (find_fvgs df).1
      ↔ (∀ c ∈ df.drop (p+3), (28/25 : ℚ) < c.low)
        ∧ (⟨28/25, 11/10, c2.time, false⟩ : Zone) ∈ takeLast 2 (bullGaps df)) := by
  have hidx2 : p + 2 - 2 = p := by omega
  have hidx1 : p + 2 - 1 = p + 1 := by omega
  constructor
  · constructor
    · intro h
      obtain ⟨d1, d2, d3, g1, g2, g3, hgap, hall, hz⟩ := fvgBullAt_some h
      rw [Zone.mk.injEq] at hz
      obtain ⟨hzh, -, -, -⟩ := hz
      intro c hc
      rw [hzh]
      exact hall c hc
    · intro hm
      have h1' : df[p+2-2]? = some c1 := by rw [hidx2]; exact h1
      have h2' : df[p+2-1]? = some c2 := by rw [hidx1]; exact h2
      have hgap : c1.high < c3.low := by rw [hhigh, hlow]; norm_num
      have := fvgBullAt_eq_some h1' h2' h3 hgap fun c hc => hlow ▸ hm c hc
      rw [hlow, hhigh] at this
      exact this
  · constructor
    · intro hmem
      refine ⟨?_, hmem⟩
      have hmem' : (⟨28/25, 11/10, c2.time, false⟩ : Zone) ∈ bullGaps df :=
        List.mem_of_mem_drop hmem
      rcases List.mem_filterMap.mp (by unfold bullGaps at hmem'; exact hmem')
        with ⟨i, hi_mem, hi_eq⟩
      obtain ⟨d1, d2, d3, g1, g2, g3, hgap, hall, hz⟩ := fvgBullAt_some hi_eq
      rw [Zone.mk.injEq] at hz
      obtain ⟨hzh, -, hzt, -⟩ := hz
      rcases List.mem_map.mp (by unfold fvgIdx at hi_mem; exact hi_mem) with ⟨j, -, rfl⟩
      have g2' : df[j+1]? = some d2 := by
        rw [show j + 2 - 1 = j + 1 by omega] at g2
        exact g2
      have hjp : j + 1 = p + 1 := candle_time_inj hmono g2' h2 hzt.symm
      have hj : j = p := by omega
      subst hj
      intro c hc
      rw [hzh]
      exact hall c hc
    · intro hand
      exact hand.2

unseal Rat.add Rat.mul Rat.inv Rat.sub in
/-- Claim C8 witness: the theorem applied to the concrete series
`fvgSeries` (gap detected at loop index 2, unmitigated, in the output). -/
theorem C8_witness :
    (fvgSeries.Pairwise (fun a b => a.time < b.time)
      ∧ fvgSeries[0]? = some ⟨0, 1, 11/10, 1, 21/20⟩
      ∧ fvgSeries[1]? = some ⟨1, 21/20, 23/20, 1, 11/10⟩
      ∧ fvgSeries[2]? = some ⟨2, 23/20, 6/5, 28/25, 29/25⟩)
    ∧ ((fvgBullAt fvgSeries 2 = some ⟨28/25, 11/10, (1 : Int), false⟩
        ↔ ∀ c ∈ fvgSeries.drop 3, (28/25 : ℚ) < c.low)
      ∧ ((⟨28/25, 11/10, (1 : Int), false⟩ : Zone) ∈ (find_fvgs fvgSeries).1
        ↔ (∀ c ∈ fvgSeries.drop 3, (28/25 : ℚ) < c.low)
          ∧ (⟨28/25, 11/10, (1 : Int), false⟩ : Zone) ∈ takeLast 2 (bullGaps fvgSeries))) :=
  ⟨⟨by decide, rfl, rfl, rfl⟩,
   C8_theorem fvgSeries 0 ⟨0, 1, 11/10, 1, 21/20⟩ ⟨1, 21/20, 23/20, 1, 11/10⟩
     ⟨2, 23/20, 6/5, 28/25, 29/25⟩ (by decide) rfl rfl rfl rfl rfl⟩

/-- Claim C1 (amended): in the Ranging market-structure state
`get_trade_suggestion` performs no zone containment checks at all and
always returns Neutral with the reason string
`"Ranging market, no clear edge."`. -/
theorem C1_theorem (a : Analysis) (rr : ℚ)
    (h : a.market_structure.1 = MarketStructure.Ranging) :
    get_trade_suggestion a rr =
      ⟨TradeAction.Neutral, none, none, none, "Ranging market, no clear edge."⟩ := by
  unfold get_trade_suggestion
  rw [h]

unseal Rat.add Rat.mul Rat.inv Rat.sub in
/-- Claim C1 counterexample: an analysis in the Ranging state whose current
price lies inside a supply zone still yields Neutral, not the Sell the
claim requires. -/
theorem C1_counterexample :
    get_trade_suggestion rangingInSupply 2 =
      ⟨TradeAction.Neutral, none, none, none, "Ranging market, no clear edge."⟩
    ∧ ∃ z ∈ rangingInSupply.supply_zones,
        z.low ≤ rangingInSupply.current_price
          ∧ rangingInSupply.current_price ≤ z.high := by
  decide

/-- Claim C1 witness: the amended theorem applied to `rangingInSupply`. -/
theorem C1_witness :
    rangingInSupply.market_structure.1 = MarketStructure.Ranging
    ∧ get_trade_suggestion rangingInSupply 2 =
        ⟨TradeAction.Neutral, none, none, none, "Ranging market, no clear edge."⟩ :=
  ⟨rfl, C1_theorem rangingInSupply 2 rfl⟩

theorem zoneSearch_some {p : ℚ} :
    ∀ {pairs : List (List Zone × String)} {z : Zone} {nm : String},
    zoneSearch p pairs = some (z, nm) →
    (z.low ≤ p ∧ p ≤ z.high) ∧ ∃ pr ∈ pairs, z ∈ pr.1 := by
  intro pairs
  induction pairs with
  | nil =>
    intro z nm h
    exact absurd h (by simp [zoneSearch])
  | cons pr rest ih =>
    intro z nm h
    obtain ⟨zs, nm'⟩ := pr
    unfold zoneSearch at h
    split at h
    · rename_i z0 hf
      have hpair : z0 = z ∧ nm' = nm := by
        have := Option.some.inj h
        exact ⟨congrArg Prod.fst this, congrArg Prod.snd this⟩
      obtain ⟨rfl, -⟩ := hpair
      have hfz := List.find?_some hf
      simp only [decide_eq_true_eq] at hfz
      refine ⟨hfz, ?_⟩
      exact ⟨(zs, nm'), List.mem_cons_self _ _, List.mem_of_find?_eq_some hf⟩
    · obtain ⟨hin, pr', hpr', hz'⟩ := ih h
      exact ⟨hin, pr', List.mem_cons_of_mem _ hpr', hz'⟩

/-- Claim C2: for positive zone bounds and a positive current price, every
suggestion of `get_trade_suggestion` satisfies the invariant — a Neutral
action carries no entry/stop/target, a non-Neutral action carries all
three with the stop-loss on the losing side of the entry. -/
theorem C2_theorem (a : Analysis) (rr : ℚ) (hpp : 0 < a.current_price)
    (hz : ∀ z ∈ a.demand_zones ++ a.supply_zones ++ a.bullish_ob ++ a.bearish_ob
        ++ a.bullish_fvg ++ a.bearish_fvg, 0 < z.low ∧ 0 < z.high) :
    ((get_trade_suggestion a rr).action = TradeAction.Neutral →
      (get_trade_suggestion a rr).entry = none ∧ (get_trade_suggestion a rr).sl = none
        ∧ (get_trade_suggestion a rr).tp = none)
    ∧ ((get_trade_suggestion a rr).action ≠ TradeAction.Neutral →
      ∃ e sl tp, (get_trade_suggestion a rr).entry = some e
        ∧ (get_trade_suggestion a rr).sl = some sl
        ∧ (get_trade_suggestion a rr).tp = some tp
        ∧ ((get_trade_suggestion a rr).action = TradeAction.Buy → sl < e)
        ∧ ((get_trade_suggestion a rr).action = TradeAction.Sell → e < sl)) := by
  unfold get_trade_suggestion
  cases hms : a.market_structure.1 with
  | Uptrend =>
    cases hzs : zoneSearch a.current_price
        [(a.demand_zones, "demand zones"), (a.bullish_ob, "bullish ob"),
         (a.bullish_fvg, "bullish fvg")] with
    | none =>
      exact ⟨fun _ => ⟨rfl, rfl, rfl⟩, fun hne => absurd rfl hne⟩
    | some zr =>
      obtain ⟨⟨hlo, -⟩, pr, hpr, hzin⟩ := zoneSearch_some hzs
      have hmem : zr.1 ∈ a.demand_zones ++ a.supply_zones ++ a.bullish_ob ++ a.bearish_ob
          ++ a.bullish_fvg ++ a.bearish_fvg := by
        simp only [List.mem_cons, List.not_mem_nil, or_false] at hpr
        rcases hpr with rfl | rfl | rfl <;>
          · simp only [List.mem_append]
            tauto
      have hlow_pos : 0 < zr.1.low := (hz zr.1 hmem).1
      refine ⟨fun hN => absurd hN (by simp), fun _ => ?_⟩
      refine ⟨a.current_price, zr.1.low * (999 / 1000), _, rfl, rfl, rfl, ?_, ?_⟩
      · intro _
        calc zr.1.low * (999 / 1000) < zr.1.low := by
              exact mul_lt_of_lt_one_right hlow_pos (by norm_num)
          _ ≤ a.current_price := hlo
      · intro hact
        exact absurd hact (by simp)
  | Downtrend =>
    cases hzs : zoneSearch a.current_price
        [(a.supply_zones, "supply zones"), (a.bearish_ob, "bearish ob"),
         (a.bearish_fvg, "bearish fvg")] with
    | none =>
      exact ⟨fun _ => ⟨rfl, rfl, rfl⟩, fun hne => absurd rfl hne⟩
    | some zr =>
      obtain ⟨⟨-, hhi⟩, pr, hpr, hzin⟩ := zoneSearch_some hzs
      have hmem : zr.1 ∈ a.demand_zones ++ a.supply_zones ++ a.bullish_ob ++ a.bearish_ob
          ++ a.bullish_fvg ++ a.bearish_fvg := by
        simp only [List.mem_cons, List.not_mem_nil, or_false] at hpr
        rcases hpr with rfl | rfl | rfl <;>
          · simp only [List.mem_append]
            tauto
      have hhigh_pos : 0 < zr.1.high := (hz zr.1 hmem).2
      refine ⟨fun hN => absurd hN (by simp), fun _ => ?_⟩
      refine ⟨a.current_price, zr.1.high * (1001 / 1000), _, rfl, rfl, rfl, ?_, ?_⟩
      · intro hact
        exact absurd hact (by simp)
      · intro _
        calc a.current_price ≤ zr.1.high := hhi
          _ < zr.1.high * (1001 / 1000) := by
              exact lt_mul_of_one_lt_right hhigh_pos (by norm_num)
  | Ranging =>
    exact ⟨fun _ => ⟨rfl, rfl, rfl⟩, fun hne => absurd rfl hne⟩

unseal Rat.add Rat.mul Rat.inv Rat.sub in
/-- Claim C2 witness: the invariant applied to an Uptrend analysis whose
price sits inside the demand zone [1, 2] — the suggestion is a Buy. -/
theorem C2_witness :
    (0 < uptrendInDemand.current_price
      ∧ ∀ z ∈ uptrendInDemand.demand_zones ++ uptrendInDemand.supply_zones
          ++ uptrendInDemand.bullish_ob ++ uptrendInDemand.bearish_ob
          ++ uptrendInDemand.bullish_fvg ++ uptrendInDemand.bearish_fvg,
          0 < z.low ∧ 0 < z.high)
    ∧ (((get_trade_suggestion uptrendInDemand 2).action = TradeAction.Neutral →
        (get_trade_suggestion uptrendInDemand 2).entry = none
          ∧ (get_trade_suggestion uptrendInDemand 2).sl = none
          ∧ (get_trade_suggestion uptrendInDemand 2).tp = none)
      ∧ ((get_trade_suggestion uptrendInDemand 2).action ≠ TradeAction.Neutral →
        ∃ e sl tp, (get_trade_suggestion uptrendInDemand 2).entry = some e
          ∧ (get_trade_suggestion uptrendInDemand 2).sl = some sl
          ∧ (get_trade_suggestion uptrendInDemand 2).tp = some tp
          ∧ ((get_trade_suggestion uptrendInDemand 2).action = TradeAction.Buy → sl < e)
          ∧ ((get_trade_suggestion uptrendInDemand 2).action = TradeAction.Sell → e < sl))) :=
  ⟨⟨by decide, by decide⟩, C2_theorem uptrendInDemand 2 (by decide) (by decide)⟩

theorem b2i_nonneg (b : Bool) : 0 ≤ b2i b := by
  cases b <;> simp [b2i]

theorem confluencesBuy_nonneg (a : Analysis) (e : ℚ) : 0 ≤ confluencesBuy a e := by
  unfold confluencesBuy
  have h1 := b2i_nonneg (a.bullish_ob.any (inZone e))
  have h2 := b2i_nonneg (a.bullish_fvg.any (inZone e))
  have h3 := b2i_nonneg (a.support.any (nearLevel e))
  have h4 := b2i_nonneg (a.candlestick_patterns.any fun p => hasSub bullishStr p.name)
  linarith

theorem confluencesSell_nonneg (a : Analysis) (e : ℚ) : 0 ≤ confluencesSell a e := by
  unfold confluencesSell
  have h1 := b2i_nonneg (a.bearish_ob.any (inZone e))
  have h2 := b2i_nonneg (a.bearish_fvg.any (inZone e))
  have h3 := b2i_nonneg (a.resistance.any (nearLevel e))
  have h4 := b2i_nonneg (a.candlestick_patterns.any fun p => hasSub bearishStr p.name)
  linarith

theorem conf_bounds {k : Int} (hk : 0 ≤ k) :
    0 ≤ min (50 + 15 * k) 95 ∧ min (50 + 15 * k) 95 ≤ 100 :=
  ⟨le_min (by linarith) (by norm_num), le_trans (min_le_right _ _) (by norm_num)⟩

/-- Claim C3 (amended): whenever `calculate_confidence` returns a value
(it raises instead when the unguarded proximity check divides by a zero or
absent entry against a non-empty level list), the value is exactly 30 for
Neutral and otherwise `min (50 + 15 * confluences) 95`, and it always lies
in [0, 100]. -/
theorem C3_theorem (a : Analysis) (s : Suggestion) (c : Int)
    (h : calculate_confidence a s = some c) :
    (s.action = TradeAction.Neutral → c = 30)
    ∧ (s.action ≠ TradeAction.Neutral → c = min (50 + 15 * confluenceCount a s) 95)
    ∧ 0 ≤ c ∧ c ≤ 100 := by
  unfold calculate_confidence at h
  by_cases hn : s.action = TradeAction.Neutral
  · rw [if_pos hn] at h
    have hc : c = 30 := (Option.some.inj h).symm
    subst hc
    exact ⟨fun _ => rfl, fun hne => absurd hn hne, by norm_num, by norm_num⟩
  · rw [if_neg hn] at h
    split at h
    · rename_i e hact hent
      by_cases h0 : e = 0 ∧ a.support ≠ []
      · rw [if_pos h0] at h
        exact absurd h (by simp)
      · rw [if_neg h0] at h
        have hc : c = min (50 + 15 * confluencesBuy a e) 95 := (Option.some.inj h).symm
        have hcc : confluenceCount a s = confluencesBuy a e := by
          simp [confluenceCount, hact, hent]
        obtain ⟨hb1, hb2⟩ := conf_bounds (confluencesBuy_nonneg a e)
        exact ⟨fun hN => absurd hN hn, fun _ => by rw [hcc]; exact hc,
          hc ▸ hb1, hc ▸ hb2⟩
    · rename_i hact hent
      by_cases h0 : a.bullish_ob = [] ∧ a.bullish_fvg = [] ∧ a.support = []
      · rw [if_pos h0] at h
        have hc : c = min (50 + 15 * confluencesBuy a 0) 95 := (Option.some.inj h).symm
        have hcc : confluenceCount a s = confluencesBuy a 0 := by
          simp [confluenceCount, hact, hent]
        obtain ⟨hb1, hb2⟩ := conf_bounds (confluencesBuy_nonneg a 0)
        exact ⟨fun hN => absurd hN hn, fun _ => by rw [hcc]; exact hc,
          hc ▸ hb1, hc ▸ hb2⟩
      · rw [if_neg h0] at h
        exact absurd h (by simp)
    · rename_i e hact hent
      by_cases h0 : e = 0 ∧ a.resistance ≠ []
      · rw [if_pos h0] at h
        exact absurd h (by simp)
      · rw [if_neg h0] at h
        have hc : c = min (50 + 15 * confluencesSell a e) 95 := (Option.some.inj h).symm
        have hcc : confluenceCount a s = confluencesSell a e := by
          simp [confluenceCount, hact, hent]
        obtain ⟨hb1, hb2⟩ := conf_bounds (confluencesSell_nonneg a e)
        exact ⟨fun hN => absurd hN hn, fun _ => by rw [hcc]; exact hc,
          hc ▸ hb1, hc ▸ hb2⟩
    · rename_i hact hent
      by_cases h0 : a.bearish_ob = [] ∧ a.bearish_fvg = [] ∧ a.resistance = []
      · rw [if_pos h0] at h
        have hc : c = min (50 + 15 * confluencesSell a 0) 95 := (Option.some.inj h).symm
        have hcc : confluenceCount a s = confluencesSell a 0 := by
          simp [confluenceCount, hact, hent]
        obtain ⟨hb1, hb2⟩ := conf_bounds (confluencesSell_nonneg a 0)
        exact ⟨fun hN => absurd hN hn, fun _ => by rw [hcc]; exact hc,
          hc ▸ hb1, hc ▸ hb2⟩
      · rw [if_neg h0] at h
        exact absurd h (by simp)
    · rename_i hact
      exact absurd hact hn

/-- Claim C3 counterexample: a non-Neutral suggestion with entry 0 against
an analysis with one support level makes the Python code raise
`ZeroDivisionError` instead of returning a confidence in [0, 100]
(the embedding returns `none`). -/
theorem C3_counterexample :
    calculate_confidence supportOnly buyEntryZero = none
    ∧ buyEntryZero.action ≠ TradeAction.Neutral := by
  decide

unseal Rat.add Rat.mul Rat.inv Rat.sub in
/-- Claim C3 witness: the amended theorem applied to a Buy at entry 1 with
support level 1 — one confluence, score 65. -/
theorem C3_witness :
    calculate_confidence supportOnly buyEntryOne = some 65
    ∧ ((buyEntryOne.action = TradeAction.Neutral → (65 : Int) = 30)
      ∧ (buyEntryOne.action ≠ TradeAction.Neutral →
          (65 : Int) = min (50 + 15 * confluenceCount supportOnly buyEntryOne) 95)
      ∧ (0 : Int) ≤ 65 ∧ (65 : Int) ≤ 100) :=
  ⟨by decide, C3_theorem supportOnly buyEntryOne 65 (by decide)⟩

/-- Claim C7 (code bug): at entry 0 with a non-empty resistance list the
proximity confluence check of `calculate_confidence` divides by the entry
with no guard, so the Python code raises `ZeroDivisionError` (modelled
`none`) instead of short-circuiting to a safe default. -/
theorem C7_theorem :
    calculate_confidence resistanceOnly sellEntryZero = none
    ∧ sellEntryZero.action ≠ TradeAction.Neutral
    ∧ sellEntryZero.entry = some 0
    ∧ resistanceOnly.resistance ≠ [] := by
  decide

theorem startsWithL_mem : ∀ {pat l : List Nat}, startsWithL pat l = true → ∀ x ∈ pat, x ∈ l := by
  intro pat
  induction pat with
  | nil =>
    intro l _ x hx
    exact absurd hx (List.not_mem_nil x)
  | cons q qs ih =>
    intro l h x hx
    cases l with
    | nil => exact absurd h (by simp [startsWithL])
    | cons c cs =>
      simp only [startsWithL, Bool.and_eq_true, beq_iff_eq] at h
      obtain ⟨hqc, h2⟩ := h
      rcases List.mem_cons.mp hx with rfl | hx'
      · rw [hqc]
        exact List.mem_cons_self c cs
      · exact List.mem_cons_of_mem c (ih h2 x hx')

theorem hasSub_mem : ∀ {l pat : List Nat}, hasSub pat l = true → ∀ x ∈ pat, x ∈ l := by
  intro l
  induction l with
  | nil =>
    intro pat h x hx
    have := startsWithL_mem (by simpa [hasSub] using h) x hx
    exact absurd this (List.not_mem_nil x)
  | cons c cs ih =>
    intro pat h x hx
    simp only [hasSub, Bool.or_eq_true] at h
    rcases h with h1 | h2
    · exact startsWithL_mem h1 x hx
    · exact List.mem_cons_of_mem c (ih h2 x hx)

theorem upperCode_ne_lower {n m : Nat} (h1 : 97 ≤ m) (h2 : m ≤ 122) : upperCode n ≠ m := by
  unfold upperCode
  split
  · rename_i hcond
    omega
  · rename_i hcond
    omega

theorem hasSub_prefixed_upper_false (pat : List Nat) (m : Nat) (hm1 : 97 ≤ m) (hm2 : m ≤ 122)
    (hmem : m ∈ pat) (b : Nat) (hb : b ≠ m) (l : List Nat) :
    hasSub pat ([b, 95] ++ l.map upperCode) = false := by
  apply Bool.eq_false_iff.mpr
  intro htrue
  have hmeml := hasSub_mem htrue m hmem
  rcases List.mem_append.mp hmeml with hml | hmr
  · rcases List.mem_cons.mp hml with h1 | h1
    · exact hb h1.symm
    · have : m = 95 := List.mem_singleton.mp h1
      omega
  · rcases List.mem_map.mp hmr with ⟨y, -, hy⟩
    exact upperCode_ne_lower hm1 hm2 hy

theorem pattern_name_shape (df : List Candle) (cols : List (List Nat))
    (rows : List (List Int)) :
    ∀ p ∈ find_candlestick_patterns df cols rows,
      (p.name.take 2 = [66, 95] ∨ p.name.take 2 = [83, 95])
      ∧ hasSub bullishStr p.name = false ∧ hasSub bearishStr p.name = false := by
  intro p hp
  unfold find_candlestick_patterns at hp
  rcases List.mem_flatten.mp hp with ⟨inner, hinner, hpin⟩
  rcases List.mem_map.mp hinner with ⟨rc, -, rfl⟩
  rcases List.mem_append.mp hpin with hside | hside
  · rcases List.mem_filterMap.mp hside with ⟨cv, -, hcv⟩
    by_cases hval : cv.2 = 100
    · rw [if_pos hval] at hcv
      obtain rfl : (⟨[66, 95] ++ (replaceCDL cv.1).map upperCode, rc.2.time, PatPos.below,
          rc.2.low⟩ : PatternRec) = p := Option.some.inj hcv
      refine ⟨Or.inl rfl, ?_, ?_⟩
      · exact hasSub_prefixed_upper_false bullishStr 117 (by norm_num) (by norm_num)
          (by decide) 66 (by norm_num) (replaceCDL cv.1)
      · exact hasSub_prefixed_upper_false bearishStr 101 (by norm_num) (by norm_num)
          (by decide) 66 (by norm_num) (replaceCDL cv.1)
    · rw [if_neg hval] at hcv
      exact absurd hcv (by simp)
  · rcases List.mem_filterMap.mp hside with ⟨cv, -, hcv⟩
    by_cases hval : cv.2 = -100
    · rw [if_pos hval] at hcv
      obtain rfl : (⟨[83, 95] ++ (replaceCDL cv.1).map upperCode, rc.2.time, PatPos.above,
          rc.2.high⟩ : PatternRec) = p := Option.some.inj hcv
      refine ⟨Or.inr rfl, ?_, ?_⟩
      · exact hasSub_prefixed_upper_false bullishStr 117 (by norm_num) (by norm_num)
          (by decide) 83 (by norm_num) (replaceCDL cv.1)
      · exact hasSub_prefixed_upper_false bearishStr 101 (by norm_num) (by norm_num)
          (by decide) 83 (by norm_num) (replaceCDL cv.1)
    · rw [if_neg hval] at hcv
      exact absurd hcv (by simp)

/-- Claim C10: every record of `find_candlestick_patterns` is named
`B_...`/`S_...` in upper case and therefore never contains the substrings
`"Bullish"`/`"Bearish"`, so the matching-direction candlestick confluence
of `calculate_confidence` is never satisfied on such patterns and the score
is the same as with an empty pattern list. -/
theorem C10_theorem (df : List Candle) (cols : List (List Nat)) (rows : List (List Int))
    (a : Analysis) (s : Suggestion)
    (hp : a.candlestick_patterns = find_candlestick_patterns df cols rows) :
    (∀ p ∈ a.candlestick_patterns,
      (p.name.take 2 = [66, 95] ∨ p.name.take 2 = [83, 95])
      ∧ hasSub bullishStr p.name = false ∧ hasSub bearishStr p.name = false)
    ∧ (a.candlestick_patterns.any fun p => hasSub bullishStr p.name) = false
    ∧ (a.candlestick_patterns.any fun p => hasSub bearishStr p.name) = false
    ∧ calculate_confidence a s
        = calculate_confidence { a with candlestick_patterns := [] } s := by
  have hshape : ∀ p ∈ a.candlestick_patterns,
      (p.name.take 2 = [66, 95] ∨ p.name.take 2 = [83, 95])
      ∧ hasSub bullishStr p.name = false ∧ hasSub bearishStr p.name = false := by
    rw [hp]
    exact pattern_name_shape df cols rows
  have hbull : (a.candlestick_patterns.any fun p => hasSub bullishStr p.name) = false := by
    apply Bool.eq_false_iff.mpr
    intro htrue
    rcases List.any_eq_true.mp htrue with ⟨q, hq, hqs⟩
    rw [(hshape q hq).2.1] at hqs
    exact Bool.noConfusion hqs
  have hbear : (a.candlestick_patterns.any fun p => hasSub bearishStr p.name) = false := by
    apply Bool.eq_false_iff.mpr
    intro htrue
    rcases List.any_eq_true.mp htrue with ⟨q, hq, hqs⟩
    rw [(hshape q hq).2.2] at hqs
    exact Bool.noConfusion hqs
  have hcb : ∀ e, confluencesBuy a e = confluencesBuy { a with candlestick_patterns := [] } e := by
    intro e
    unfold confluencesBuy
    rw [hbull]
    rfl
  have hcs : ∀ e, confluencesSell a e = confluencesSell { a with candlestick_patterns := [] } e := by
    intro e
    unfold confluencesSell
    rw [hbear]
    rfl
  refine ⟨hshape, hbull, hbear, ?_⟩
  obtain ⟨act, ent, stl, stp, rsn⟩ := s
  cases act with
  | Neutral => rfl
  | Buy =>
    cases ent with
    | some e =>
      show (if e = 0 ∧ a.support ≠ [] then none
          else some (min (50 + 15 * confluencesBuy a e) 95))
        = (if e = 0 ∧ a.support ≠ [] then none
          else some (min (50 + 15 * confluencesBuy { a with candlestick_patterns := [] } e) 95))
      by_cases h0 : e = 0 ∧ a.support ≠ []
      · rw [if_pos h0, if_pos h0]
      · rw [if_neg h0, if_neg h0, hcb e]
    | none =>
      show (if a.bullish_ob = [] ∧ a.bullish_fvg = [] ∧ a.support = [] then
            some (min (50 + 15 * confluencesBuy a 0) 95) else none)
        = (if a.bullish_ob = [] ∧ a.bullish_fvg = [] ∧ a.support = [] then
            some (min (50 + 15 * confluencesBuy { a with candlestick_patterns := [] } 0) 95)
          else none)
      by_cases h0 : a.bullish_ob = [] ∧ a.bullish_fvg = [] ∧ a.support = []
      · rw [if_pos h0, if_pos h0, hcb 0]
      · rw [if_neg h0, if_neg h0]
  | Sell =>
    cases ent with
    | some e =>
      show (if e = 0 ∧ a.resistance ≠ [] then none
          else some (min (50 + 15 * confluencesSell a e) 95))
        = (if e = 0 ∧ a.resistance ≠ [] then none
          else some (min (50 + 15 * confluencesSell { a with candlestick_patterns := [] } e) 95))
      by_cases h0 : e = 0 ∧ a.resistance ≠ []
      · rw [if_pos h0, if_pos h0]
      · rw [if_neg h0, if_neg h0, hcs e]
    | none =>
      show (if a.bearish_ob = [] ∧ a.bearish_fvg = [] ∧ a.resistance = [] then
            some (min (50 + 15 * confluencesSell a 0) 95) else none)
        = (if a.bearish_ob = [] ∧ a.bearish_fvg = [] ∧ a.resistance = [] then
            some (min (50 + 15 * confluencesSell { a with candlestick_patterns := [] } 0) 95)
          else none)
      by_cases h0 : a.bearish_ob = [] ∧ a.bearish_fvg = [] ∧ a.resistance = []
      · rw [if_pos h0, if_pos h0, hcs 0]
      · rw [if_neg h0, if_neg h0]

unseal Rat.add Rat.mul Rat.inv Rat.sub in
/-- Claim C10 witness: the theorem applied to the concrete detection matrix
with one bullish ENGULFING hit. -/
theorem C10_witness :
    patAnalysis.candlestick_patterns = find_candlestick_patterns patSeries patCols patRows
    ∧ ((∀ p ∈ patAnalysis.candlestick_patterns,
        (p.name.take 2 = [66, 95] ∨ p.name.take 2 = [83, 95])
        ∧ hasSub bullishStr p.name = false ∧ hasSub bearishStr p.name = false)
      ∧ (patAnalysis.candlestick_patterns.any fun p => hasSub bullishStr p.name) = false
      ∧ (patAnalysis.candlestick_patterns.any fun p => hasSub bearishStr p.name) = false
      ∧ calculate_confidence patAnalysis buyEntryOne
          = calculate_confidence { patAnalysis with candlestick_patterns := [] } buyEntryOne) :=
  ⟨rfl, C10_theorem patSeries patCols patRows patAnalysis buyEntryOne rfl⟩

end Zenith
